import Mathlib

/-!
Verification of the Bencode decoder of the `torcode` crate (`src/bencode.rs`).

Shallow embedding conventions:
* a Rust byte slice `&[u8]` becomes `List Nat` (each element one byte value);
* nom's `IResult<&[u8], T>` becomes `Option (List Nat × T)`; `none` models
  `Err(..)` and `some (rest, v)` models `Ok((rest, v))`;
* a Rust `String` / `&str` is represented by its list of UTF-8 bytes, so the
  fallible `String::from_utf8` / `str::from_utf8` becomes a UTF-8 validity
  check that returns the same bytes;
* `HashMap<String, BValue>` is represented by an association list built by
  successive insertion, later insertions of an already present key
  overwriting the stored value, exactly as `HashMap` behaves under
  `collect` (`s.into_iter().collect()` in `parse_dict`);
* the mutual recursion of the parser is driven by an explicit fuel
  argument; the entry point `from_bytes` supplies `input length + 1` fuel.
  Every recursive descent into `from_bytesF` happens strictly after at
  least one byte of the input has been consumed, and every iteration of a
  `many1` loop consumes at least two bytes, so this fuel can never run out
  on the paths the Rust parser actually takes: the embedding agrees with
  the unbounded Rust recursion on every input;
* a Rust panic (process abort) is modelled by `Except.error ()`, a normal
  return by `Except.ok`.
-/

namespace Torcode

/-- ASCII decimal digit test: the bytes accepted by nom's `digit1`. -/
def isDigit (b : Nat) : Bool := decide (48 ≤ b) && decide (b ≤ 57)

/-- nom's `char(c)` on byte input: consumes exactly the byte `c`. -/
def pchar (c : Nat) : List Nat → Option (List Nat × Nat)
  | [] => none
  | b :: rest => if b = c then some (rest, c) else none

/-- The longest prefix of decimal digit bytes, with the remainder. -/
def digitSpan : List Nat → List Nat × List Nat
  | [] => ([], [])
  | b :: t =>
    if isDigit b then (b :: (digitSpan t).1, (digitSpan t).2)
    else ([], b :: t)

/-- nom's `digit1`: one or more ASCII digits, maximal run. -/
def digit1 (i : List Nat) : Option (List Nat × List Nat) :=
  match digitSpan i with
  | ([], _) => none
  | (ds, r) => some (r, ds)

/-- nom's `take(n)` (complete): exactly `n` bytes or an error. -/
def ptake (n : Nat) (i : List Nat) : Option (List Nat × List Nat) :=
  if n ≤ i.length then some (i.drop n, i.take n) else none

/-- Numeric value of a run of ASCII digit bytes, most significant first
(the value computed by `str::parse` on the digit run). -/
def digitsVal (ds : List Nat) : Nat :=
  ds.foldl (fun a d => a * 10 + (d - 48)) 0

/-- `i64::MIN`. -/
def i64Min : Int := -9223372036854775808

/-- `i64::MAX`. -/
def i64Max : Int := 9223372036854775807

/-- `usize::MAX + 1` on the 64-bit targets the crate is built for. -/
def usizeLim : Nat := 18446744073709551616

/-- Signed value of an optional minus sign plus a digit run. -/
def intOfDigits (neg : Bool) (ds : List Nat) : Int :=
  if neg then -(digitsVal ds : Int) else (digitsVal ds : Int)

/-- UTF-8 continuation byte, `0x80`–`0xBF`. -/
def utf8Cont (b : Nat) : Bool := decide (128 ≤ b) && decide (b ≤ 191)

/-- UTF-8 validity of a byte list, following the byte-range table used by
`core::str::from_utf8` / `String::from_utf8` (no overlong forms, no
surrogates, max scalar `U+10FFFF`). -/
def validUtf8 : List Nat → Bool
  | [] => true
  | b :: rest =>
    if b ≤ 127 then validUtf8 rest
    else if b < 194 then false
    else if b ≤ 223 then
      match rest with
      | b1 :: r => utf8Cont b1 && validUtf8 r
      | [] => false
    else if b ≤ 239 then
      match rest with
      | b1 :: b2 :: r =>
        (if b = 224 then decide (160 ≤ b1) && decide (b1 ≤ 191)
         else if b = 237 then decide (128 ≤ b1) && decide (b1 ≤ 159)
         else utf8Cont b1) && utf8Cont b2 && validUtf8 r
      | _ => false
    else if b ≤ 244 then
      match rest with
      | b1 :: b2 :: b3 :: r =>
        (if b = 240 then decide (144 ≤ b1) && decide (b1 ≤ 191)
         else if b = 244 then decide (128 ≤ b1) && decide (b1 ≤ 143)
         else utf8Cont b1) && utf8Cont b2 && utf8Cont b3 && validUtf8 r
      | _ => false
    else false

/-- The `BValue` ADT of `bencode.rs`: `BNumber` (i64), `BBytes` (`Vec<u8>`),
`BList` (`Vec<BValue>`), `BDict` (`HashMap<String, BValue>`, keys
represented by their UTF-8 byte lists). -/
inductive BValue : Type where
  | BNumber (n : Int)
  | BBytes (bs : List Nat)
  | BList (xs : List BValue)
  | BDict (m : List (List Nat × BValue))

/-- `HashMap::insert` on the association-list representation: an existing
key has its value overwritten, a new key is appended. -/
def insertKV : List (List Nat × BValue) → List Nat → BValue → List (List Nat × BValue)
  | [], k, v => [(k, v)]
  | (a, b) :: t, k, v => if a = k then (k, v) :: t else (a, b) :: insertKV t k v

/-- `s.into_iter().collect::<HashMap<_, _>>()`: successive insertion, so a
later pair with a duplicate key overwrites the earlier entry. -/
def collectKV (ps : List (List Nat × BValue)) : List (List Nat × BValue) :=
  ps.foldl (fun m p => insertKV m p.1 p.2) []

/-- `HashMap` lookup on the association-list representation. -/
def lookupKV : List (List Nat × BValue) → List Nat → Option BValue
  | [], _ => none
  | (a, b) :: t, k => if a = k then some b else lookupKV t k

/-- `BValue::get_number`. -/
def BValue.get_number : BValue → Option Int
  | .BNumber n => some n
  | _ => none

/-- `BValue::get_bytes`. -/
def BValue.get_bytes : BValue → Option (List Nat)
  | .BBytes bs => some bs
  | _ => none

/-- `BValue::get_list`. -/
def BValue.get_list : BValue → Option (List BValue)
  | .BList xs => some xs
  | _ => none

/-- `BValue::get_dict`. -/
def BValue.get_dict : BValue → Option (List (List Nat × BValue))
  | .BDict m => some m
  | _ => none

/-- `BValue::get_string`: `Some(from_utf8(bytes).unwrap())` on the `BBytes`
variant, `None` otherwise.  The `.unwrap()` aborts the process when the
bytes are not valid UTF-8; that abort is modelled by `Except.error ()`,
while `Except.ok r` models a normal return of the `Option<&str>` value `r`
(a `&str` is represented by its underlying bytes). -/
def BValue.get_string (v : BValue) : Except Unit (Option (List Nat)) :=
  match v.get_bytes with
  | some bytes => if validUtf8 bytes then .ok (some bytes) else .error ()
  | none => .ok none

/-- `map_res(signed_digit, ..parse::<i64>())`: the digit run (with optional
sign) must denote a value representable in `i64`, otherwise `parse` fails. -/
def toI64 (neg : Bool) (ds : List Nat) : Option Int :=
  if i64Min ≤ intOfDigits neg ds ∧ intOfDigits neg ds ≤ i64Max then
    some (intOfDigits neg ds)
  else none

/-- `recognize(pair(opt(char('-')), digit1))`, returning the sign and the
digit run of the recognized span. -/
def signed_digit (i : List Nat) : Option (List Nat × (Bool × List Nat)) :=
  match pchar 45 i with
  | some (i1, _) =>
    match digit1 i1 with
    | none => none
    | some (i2, ds) => some (i2, (true, ds))
  | none =>
    match digit1 i with
    | none => none
    | some (i2, ds) => some (i2, (false, ds))

/-- `parse_number`: `terminated(preceded(char('i'), parsed_num), char('e'))`
where `parsed_num` is the `i64` of the signed digit run. -/
def parse_number (i : List Nat) : Option (List Nat × Int) :=
  match pchar 105 i with
  | none => none
  | some (i1, _) =>
    match signed_digit i1 with
    | none => none
    | some (i2, sd) =>
      match toI64 sd.1 sd.2 with
      | none => none
      | some v =>
        match pchar 101 i2 with
        | none => none
        | some (i3, _) => some (i3, v)

/-- `parse_length`: `map_res(terminated(digit1, char(':')), ..parse::<usize>())`. -/
def parse_length (i : List Nat) : Option (List Nat × Nat) :=
  match digit1 i with
  | none => none
  | some (i1, ds) =>
    match pchar 58 i1 with
    | none => none
    | some (i2, _) =>
      if digitsVal ds < usizeLim then some (i2, digitsVal ds) else none

/-- `parse_bytes`: a decimal length prefix, `:`, then exactly that many raw
bytes (`take(len)` mapped through `to_vec`). -/
def parse_bytes (i : List Nat) : Option (List Nat × List Nat) :=
  match parse_length i with
  | none => none
  | some (left, len) => ptake len left

/-- `parse_string`: `map_res(parse_bytes, String::from_utf8)`; the `String`
is represented by its (validated) byte list. -/
def parse_string (i : List Nat) : Option (List Nat × List Nat) :=
  match parse_bytes i with
  | none => none
  | some (l, bs) => if validUtf8 bs then some (l, bs) else none

/-- nom's `many1(p)` for a `BValue` parser `p`: `p` must succeed at least
once, then is reapplied until it fails; the fuel bounds the number of
iterations and is always supplied strictly above the attainable number
(each success of the parsers used here consumes at least two bytes). -/
def many1C (p : List Nat → Option (List Nat × BValue)) :
    Nat → List Nat → Option (List Nat × List BValue)
  | 0, _ => none
  | g + 1, i =>
    match p i with
    | none => none
    | some (i1, x) =>
      match many1C p g i1 with
      | some (i2, xs) => some (i2, x :: xs)
      | none => some (i1, [x])

/-- nom's `many1(pair(parse_string, p))` as used by `parse_dict`. -/
def many1KVC (p : List Nat → Option (List Nat × BValue)) :
    Nat → List Nat → Option (List Nat × List (List Nat × BValue))
  | 0, _ => none
  | g + 1, i =>
    match parse_string i with
    | none => none
    | some (i1, k) =>
      match p i1 with
      | none => none
      | some (i2, v) =>
        match many1KVC p g i2 with
        | some (i3, ps) => some (i3, (k, v) :: ps)
        | none => some (i2, [(k, v)])

/-- `parse_list`: `preceded(char('l'), terminated(many1(from_bytes), char('e')))`,
with `p` standing for the recursive `BValue::from_bytes`. -/
def parse_listC (p : List Nat → Option (List Nat × BValue)) (i : List Nat) :
    Option (List Nat × List BValue) :=
  match pchar 108 i with
  | none => none
  | some (i1, _) =>
    match many1C p (i1.length + 1) i1 with
    | none => none
    | some (i2, xs) =>
      match pchar 101 i2 with
      | none => none
      | some (i3, _) => some (i3, xs)

/-- `parse_dict`: `d`, one or more `parse_string`/value pairs, `e`, and the
pairs collected into the `HashMap`. -/
def parse_dictC (p : List Nat → Option (List Nat × BValue)) (i : List Nat) :
    Option (List Nat × List (List Nat × BValue)) :=
  match pchar 100 i with
  | none => none
  | some (i1, _) =>
    match many1KVC p (i1.length + 1) i1 with
    | none => none
    | some (i2, ps) =>
      match pchar 101 i2 with
      | none => none
      | some (i3, _) => some (i3, collectKV ps)

/-- `BValue::from_bytes`, fueled: `alt((bnumber, bbytes, blist, bdict))`,
each branch mapping its production into the matching `BValue` variant.
nom's `alt` tries the branches in order and moves on when one fails. -/
def from_bytesF : Nat → List Nat → Option (List Nat × BValue)
  | 0, _ => none
  | f + 1, i =>
    match parse_number i with
    | some (l, n) => some (l, BValue.BNumber n)
    | none =>
      match parse_bytes i with
      | some (l, bs) => some (l, BValue.BBytes bs)
      | none =>
        match parse_listC (from_bytesF f) i with
        | some (l, xs) => some (l, BValue.BList xs)
        | none =>
          match parse_dictC (from_bytesF f) i with
          | some (l, m) => some (l, BValue.BDict m)
          | none => none

/-- `BValue::from_bytes`: the public decode entry point. -/
def from_bytes (i : List Nat) : Option (List Nat × BValue) :=
  from_bytesF (i.length + 1) i

/-- The UTF-8 bytes of a string, `str::as_bytes`. -/
def strBytes (s : String) : List Nat := s.toUTF8.toList.map (fun b => b.toNat)

/-- `BValue::from_string`: delegates to `from_bytes(s.as_bytes())`. -/
def from_string (s : String) : Option (List Nat × BValue) :=
  from_bytes (strBytes s)

mutual

/-- Derivation trees of the Bencode grammar the decoder accepts: one tree
per valid encoding of a value.  Integers and length prefixes carry their
literal digit runs (so non-canonical runs with leading zeros are covered,
as the grammar of `bencode.rs` accepts them). -/
inductive REnc : Type where
  | num (neg : Bool) (ds : List Nat)
  | bytes (lds : List Nat) (bs : List Nat)
  | list (xs : RListE)
  | dict (ps : RPairsE)

/-- Element sequence of a list production. -/
inductive RListE : Type where
  | nil
  | cons (x : REnc) (t : RListE)

/-- Key/value sequence of a dictionary production; `kds` is the digit run
of the key's length prefix and `k` the key bytes. -/
inductive RPairsE : Type where
  | nil
  | cons (kds : List Nat) (k : List Nat) (v : REnc) (t : RPairsE)

end

/-- Nonemptiness of a list-production element sequence. -/
def RListE.notNil : RListE → Bool
  | .nil => false
  | .cons _ _ => true

/-- Nonemptiness of a dictionary-production pair sequence. -/
def RPairsE.notNil : RPairsE → Bool
  | .nil => false
  | .cons _ _ _ _ => true

mutual

/-- Well-formedness of a derivation tree: digit runs are nonempty runs of
ASCII digits, integers fit in `i64`, length prefixes denote the payload
length and fit in `usize`, dictionary keys are valid UTF-8 (the decoder
turns them into `String`s), and list/dictionary bodies are nonempty
(`many1`). -/
def wfV : REnc → Bool
  | .num neg ds =>
    !ds.isEmpty && ds.all isDigit &&
    decide (i64Min ≤ intOfDigits neg ds) && decide (intOfDigits neg ds ≤ i64Max)
  | .bytes lds bs =>
    !lds.isEmpty && lds.all isDigit &&
    decide (digitsVal lds = bs.length) && decide (bs.length < usizeLim)
  | .list xs => xs.notNil && wfL xs
  | .dict ps => ps.notNil && wfP ps

/-- Well-formedness of a list body. -/
def wfL : RListE → Bool
  | .nil => true
  | .cons x t => wfV x && wfL t

/-- Well-formedness of a dictionary body. -/
def wfP : RPairsE → Bool
  | .nil => true
  | .cons kds k v t =>
    !kds.isEmpty && kds.all isDigit &&
    decide (digitsVal kds = k.length) && decide (k.length < usizeLim) &&
    validUtf8 k && wfV v && wfP t

end

mutual

/-- The byte string a derivation tree stands for. -/
def encV : REnc → List Nat
  | .num neg ds => 105 :: ((if neg then [45] else []) ++ ds ++ [101])
  | .bytes lds bs => lds ++ 58 :: bs
  | .list xs => 108 :: (encL xs ++ [101])
  | .dict ps => 100 :: (encP ps ++ [101])

/-- Bytes of a list body. -/
def encL : RListE → List Nat
  | .nil => []
  | .cons x t => encV x ++ encL t

/-- Bytes of a dictionary body. -/
def encP : RPairsE → List Nat
  | .nil => []
  | .cons kds k v t => kds ++ 58 :: (k ++ encV v ++ encP t)

end

mutual

/-- The `BValue` the decoder produces for a derivation tree. -/
def toB : REnc → BValue
  | .num neg ds => .BNumber (intOfDigits neg ds)
  | .bytes _ bs => .BBytes bs
  | .list xs => .BList (toBL xs)
  | .dict ps => .BDict (collectKV (toPairs ps))

/-- Values of a list body. -/
def toBL : RListE → List BValue
  | .nil => []
  | .cons x t => toB x :: toBL t

/-- Key/value pairs of a dictionary body, in parse order. -/
def toPairs : RPairsE → List (List Nat × BValue)
  | .nil => []
  | .cons _ k v t => (k, toB v) :: toPairs t

end

/-- The dictionary body of `d1:ai1e1:ai2ee`: the key `a` appears twice,
first mapped to `1`, then to `2`. -/
def dupDictExample : RPairsE :=
  RPairsE.cons [49] [97] (REnc.num false [49])
    (RPairsE.cons [49] [97] (REnc.num false [50]) RPairsE.nil)

/-- The digit bytes of `9223372036854775808`, the first natural number that
does not fit in `i64`. -/
def overflowDigits : List Nat :=
  [57, 50, 50, 51, 51, 55, 50, 48, 51, 54, 56, 53, 52, 55, 55, 53, 56, 48, 56]

theorem isDigit_iff {b : Nat} : isDigit b = true ↔ 48 ≤ b ∧ b ≤ 57 := by
  simp [isDigit]

theorem pchar_cons_self (c : Nat) (rest : List Nat) :
    pchar c (c :: rest) = some (rest, c) := by
  simp [pchar]

theorem pchar_cons_ne (c b : Nat) (rest : List Nat) (h : b ≠ c) :
    pchar c (b :: rest) = none := by
  simp [pchar, h]

theorem digitSpan_append (ds : List Nat) (c : Nat) (rest : List Nat)
    (h1 : ds.all isDigit = true) (h2 : isDigit c = false) :
    digitSpan (ds ++ c :: rest) = (ds, c :: rest) := by
  induction ds with
  | nil => simp [digitSpan, h2]
  | cons d t ih =>
    simp only [List.all_cons, Bool.and_eq_true] at h1
    simp [digitSpan, h1.1, ih h1.2]

theorem digit1_append (ds : List Nat) (c : Nat) (rest : List Nat)
    (h0 : ds ≠ []) (h1 : ds.all isDigit = true) (h2 : isDigit c = false) :
    digit1 (ds ++ c :: rest) = some (c :: rest, ds) := by
  cases ds with
  | cons d t =>
    unfold digit1
    rw [digitSpan_append (d :: t) c rest h1 h2]
  | nil => exact absurd rfl h0

theorem digit1_cons_nd (b : Nat) (i : List Nat) (h : isDigit b = false) :
    digit1 (b :: i) = none := by
  simp [digit1, digitSpan, h]

theorem take_len_append (bs rest : List Nat) : (bs ++ rest).take bs.length = bs := by
  induction bs with
  | nil => simp
  | cons b t ih => simp [ih]

theorem drop_len_append (bs rest : List Nat) : (bs ++ rest).drop bs.length = rest := by
  induction bs with
  | nil => simp
  | cons b t ih => simp [ih]

theorem ptake_append (bs rest : List Nat) :
    ptake bs.length (bs ++ rest) = some (rest, bs) := by
  simp [ptake, take_len_append, drop_len_append]

theorem ptake_short (n : Nat) (p : List Nat) (h : p.length < n) : ptake n p = none := by
  unfold ptake
  rw [if_neg (by omega)]

theorem parse_length_append (lds tail : List Nat)
    (h0 : lds ≠ []) (h1 : lds.all isDigit = true) (h2 : digitsVal lds < usizeLim) :
    parse_length (lds ++ 58 :: tail) = some (tail, digitsVal lds) := by
  simp [parse_length, digit1_append lds 58 tail h0 h1 (by decide), pchar_cons_self, h2]

theorem parse_bytes_append (lds k tail : List Nat)
    (h0 : lds ≠ []) (h1 : lds.all isDigit = true)
    (h2 : digitsVal lds = k.length) (h3 : k.length < usizeLim) :
    parse_bytes (lds ++ 58 :: (k ++ tail)) = some (tail, k) := by
  simp [parse_bytes, parse_length_append lds (k ++ tail) h0 h1 (by rw [h2]; exact h3), h2,
    ptake_append]

theorem parse_string_append (lds k tail : List Nat)
    (h0 : lds ≠ []) (h1 : lds.all isDigit = true)
    (h2 : digitsVal lds = k.length) (h3 : k.length < usizeLim) :
    parse_string (lds ++ 58 :: (k ++ tail)) =
      if validUtf8 k then some (tail, k) else none := by
  simp [parse_string, parse_bytes_append lds k tail h0 h1 h2 h3]

theorem parse_number_cons_ne (b : Nat) (rest : List Nat) (h : b ≠ 105) :
    parse_number (b :: rest) = none := by
  simp [parse_number, pchar_cons_ne 105 b rest h]

theorem parse_bytes_cons_nd (b : Nat) (rest : List Nat) (h : isDigit b = false) :
    parse_bytes (b :: rest) = none := by
  simp [parse_bytes, parse_length, digit1_cons_nd b rest h]

theorem parse_string_cons_nd (b : Nat) (rest : List Nat) (h : isDigit b = false) :
    parse_string (b :: rest) = none := by
  simp [parse_string, parse_bytes_cons_nd b rest h]

theorem parse_listC_cons_ne (p : List Nat → Option (List Nat × BValue))
    (b : Nat) (rest : List Nat) (h : b ≠ 108) :
    parse_listC p (b :: rest) = none := by
  simp [parse_listC, pchar_cons_ne 108 b rest h]

theorem parse_dictC_cons_ne (p : List Nat → Option (List Nat × BValue))
    (b : Nat) (rest : List Nat) (h : b ≠ 100) :
    parse_dictC p (b :: rest) = none := by
  simp [parse_dictC, pchar_cons_ne 100 b rest h]

theorem from_bytesF_bad (fuel b : Nat) (rest : List Nat)
    (h1 : b ≠ 105) (h2 : isDigit b = false) (h3 : b ≠ 108) (h4 : b ≠ 100) :
    from_bytesF fuel (b :: rest) = none := by
  cases fuel with
  | zero => rfl
  | succ f =>
    simp [from_bytesF, parse_number_cons_ne b rest h1, parse_bytes_cons_nd b rest h2,
      parse_listC_cons_ne (from_bytesF f) b rest h3,
      parse_dictC_cons_ne (from_bytesF f) b rest h4]

theorem from_bytesF_succ (f : Nat) (i : List Nat) :
    from_bytesF (f + 1) i =
      match parse_number i with
      | some (l, n) => some (l, BValue.BNumber n)
      | none =>
        match parse_bytes i with
        | some (l, bs) => some (l, BValue.BBytes bs)
        | none =>
          match parse_listC (from_bytesF f) i with
          | some (l, xs) => some (l, BValue.BList xs)
          | none =>
            match parse_dictC (from_bytesF f) i with
            | some (l, m) => some (l, BValue.BDict m)
            | none => none := rfl

theorem many1C_e (f g : Nat) (rest : List Nat) :
    many1C (from_bytesF f) g (101 :: rest) = none := by
  cases g with
  | zero => rfl
  | succ g0 =>
    simp [many1C, from_bytesF_bad f 101 rest (by decide) (by decide) (by decide) (by decide)]

theorem many1KVC_e (p : List Nat → Option (List Nat × BValue)) (g : Nat) (rest : List Nat) :
    many1KVC p g (101 :: rest) = none := by
  cases g with
  | zero => rfl
  | succ g0 => simp [many1KVC, parse_string_cons_nd 101 rest (by decide)]

theorem encV_length_ge2 (t : REnc) (hw : wfV t = true) : 2 ≤ (encV t).length := by
  cases t with
  | num neg ds => cases neg <;> simp [encV]
  | bytes lds bs =>
    cases lds with
    | nil => simp [wfV] at hw
    | cons a t2 => simp [encV]; omega
  | list xs => simp [encV]
  | dict ps => simp [encV]

theorem signed_digit_append (neg : Bool) (ds rest : List Nat)
    (h0 : ds ≠ []) (h1 : ds.all isDigit = true) :
    signed_digit ((if neg then [45] else []) ++ (ds ++ 101 :: rest)) =
      some (101 :: rest, (neg, ds)) := by
  cases neg with
  | true =>
    have hd : digit1 (ds ++ 101 :: rest) = some (101 :: rest, ds) :=
      digit1_append ds 101 rest h0 h1 (by decide)
    simp [signed_digit, pchar_cons_self, hd]
  | false =>
    cases ds with
    | nil => exact absurd rfl h0
    | cons d t =>
      have hdig : isDigit d = true := by
        simp only [List.all_cons, Bool.and_eq_true] at h1
        exact h1.1
      obtain ⟨hd1, hd2⟩ := isDigit_iff.mp hdig
      have hne : pchar 45 (d :: (t ++ 101 :: rest)) = none :=
        pchar_cons_ne 45 d (t ++ 101 :: rest) (by omega)
      have hd : digit1 (d :: (t ++ 101 :: rest)) = some (101 :: rest, d :: t) := by
        rw [← List.cons_append]
        exact digit1_append (d :: t) 101 rest h0 h1 (by decide)
      simp [signed_digit, hne, hd]

theorem parse_number_append (neg : Bool) (ds rest : List Nat)
    (h0 : ds ≠ []) (h1 : ds.all isDigit = true) :
    parse_number (105 :: ((if neg then [45] else []) ++ (ds ++ 101 :: rest))) =
      if i64Min ≤ intOfDigits neg ds ∧ intOfDigits neg ds ≤ i64Max then
        some (rest, intOfDigits neg ds)
      else none := by
  have hsd := signed_digit_append neg ds rest h0 h1
  by_cases hb : i64Min ≤ intOfDigits neg ds ∧ intOfDigits neg ds ≤ i64Max
  · simp [parse_number, pchar_cons_self, hsd, toI64, hb]
  · simp [parse_number, pchar_cons_self, hsd, toI64, hb]

mutual

theorem rt_val (t : REnc) (rest : List Nat) (fuel : Nat) (hw : wfV t = true)
    (hf : (encV t ++ rest).length < fuel) :
    from_bytesF fuel (encV t ++ rest) = some (rest, toB t) := by
  cases fuel with
  | zero => exact absurd hf (Nat.not_lt_zero _)
  | succ f =>
    cases t with
    | num neg ds =>
      have hw2 := hw
      simp only [wfV, Bool.and_eq_true, decide_eq_true_eq] at hw2
      obtain ⟨⟨⟨hne2, hdig⟩, hlo⟩, hhi⟩ := hw2
      have hds : ds ≠ [] := by
        cases ds with
        | nil => simp at hne2
        | cons a b => simp
      have hshape : encV (REnc.num neg ds) ++ rest =
          105 :: ((if neg then [45] else []) ++ (ds ++ 101 :: rest)) := by
        simp [encV]
      rw [hshape]
      have hpn := parse_number_append neg ds rest hds hdig
      have hb : i64Min ≤ intOfDigits neg ds ∧ intOfDigits neg ds ≤ i64Max := ⟨hlo, hhi⟩
      rw [if_pos hb] at hpn
      simp [from_bytesF, hpn, toB]
    | bytes lds bs =>
      have hw2 := hw
      simp only [wfV, Bool.and_eq_true, decide_eq_true_eq] at hw2
      obtain ⟨⟨⟨hne2, hdig⟩, hlen⟩, hlim⟩ := hw2
      have hlds : lds ≠ [] := by
        cases lds with
        | nil => simp at hne2
        | cons a b => simp
      obtain ⟨d, t2, hdt⟩ : ∃ d t2, lds = d :: t2 := by
        cases lds with
        | nil => exact absurd rfl hlds
        | cons a b => exact ⟨a, b, rfl⟩
      have hdig0 : isDigit d = true := by
        rw [hdt] at hdig
        simp only [List.all_cons, Bool.and_eq_true] at hdig
        exact hdig.1
      obtain ⟨hd1, hd2⟩ := isDigit_iff.mp hdig0
      have hshape : encV (REnc.bytes lds bs) ++ rest = lds ++ 58 :: (bs ++ rest) := by
        simp [encV]
      have hpb := parse_bytes_append lds bs rest hlds hdig hlen hlim
      have hpn : parse_number (lds ++ 58 :: (bs ++ rest)) = none := by
        rw [hdt, List.cons_append]
        exact parse_number_cons_ne d _ (by omega)
      have hpl : parse_listC (from_bytesF f) (lds ++ 58 :: (bs ++ rest)) = none := by
        rw [hdt, List.cons_append]
        exact parse_listC_cons_ne (from_bytesF f) d _ (by omega)
      have hpd : parse_dictC (from_bytesF f) (lds ++ 58 :: (bs ++ rest)) = none := by
        rw [hdt, List.cons_append]
        exact parse_dictC_cons_ne (from_bytesF f) d _ (by omega)
      rw [hshape]
      simp [from_bytesF, hpn, hpb, hpl, hpd, toB]
    | list xs =>
      have hw2 := hw
      simp only [wfV, Bool.and_eq_true] at hw2
      obtain ⟨hne2, hwl⟩ := hw2
      have hshape : encV (REnc.list xs) ++ rest = 108 :: (encL xs ++ 101 :: rest) := by
        simp [encV]
      rw [hshape] at hf ⊢
      have hlen : (encL xs ++ 101 :: rest).length < f := by
        simp only [List.length_cons] at hf
        omega
      have hpl : parse_listC (from_bytesF f) (108 :: (encL xs ++ 101 :: rest)) =
          some (rest, toBL xs) := by
        have hm := rt_list xs rest f ((encL xs ++ 101 :: rest).length + 1) hwl hne2 hlen
          (Nat.lt_succ_self _)
        simp only [List.length_append, List.length_cons] at hm
        simp [parse_listC, pchar_cons_self, hm]
      simp [from_bytesF, parse_number_cons_ne 108 _ (by decide),
        parse_bytes_cons_nd 108 _ (by decide), hpl, toB]
    | dict ps =>
      have hw2 := hw
      simp only [wfV, Bool.and_eq_true] at hw2
      obtain ⟨hne2, hwp⟩ := hw2
      have hshape : encV (REnc.dict ps) ++ rest = 100 :: (encP ps ++ 101 :: rest) := by
        simp [encV]
      rw [hshape] at hf ⊢
      have hlen : (encP ps ++ 101 :: rest).length < f := by
        simp only [List.length_cons] at hf
        omega
      have hpd : parse_dictC (from_bytesF f) (100 :: (encP ps ++ 101 :: rest)) =
          some (rest, collectKV (toPairs ps)) := by
        have hm := rt_pairs ps rest f ((encP ps ++ 101 :: rest).length + 1) hwp hne2 hlen
          (Nat.lt_succ_self _)
        simp only [List.length_append, List.length_cons] at hm
        simp [parse_dictC, pchar_cons_self, hm]
      simp [from_bytesF, parse_number_cons_ne 100 _ (by decide),
        parse_bytes_cons_nd 100 _ (by decide),
        parse_listC_cons_ne (from_bytesF f) 100 _ (by decide), hpd, toB]

theorem rt_list (xs : RListE) (rest : List Nat) (f g : Nat) (hw : wfL xs = true)
    (hne : xs.notNil = true)
    (hf : (encL xs ++ 101 :: rest).length < f)
    (hg : (encL xs ++ 101 :: rest).length < g) :
    many1C (from_bytesF f) g (encL xs ++ 101 :: rest) = some (101 :: rest, toBL xs) := by
  cases xs with
  | nil => simp [RListE.notNil] at hne
  | cons x t =>
    have hw2 := hw
    simp only [wfL, Bool.and_eq_true] at hw2
    obtain ⟨hwx, hwt⟩ := hw2
    have hx2 := encV_length_ge2 x hwx
    cases g with
    | zero => exact absurd hg (Nat.not_lt_zero _)
    | succ g0 =>
      have hshape : encL (RListE.cons x t) ++ 101 :: rest =
          encV x ++ (encL t ++ 101 :: rest) := by
        simp [encL]
      rw [hshape] at hf hg ⊢
      have hx : from_bytesF f (encV x ++ (encL t ++ 101 :: rest)) =
          some (encL t ++ 101 :: rest, toB x) :=
        rt_val x (encL t ++ 101 :: rest) f hwx hf
      cases t with
      | nil =>
        simp only [encL, List.nil_append] at hx ⊢
        have ht : many1C (from_bytesF f) g0 (101 :: rest) = none := many1C_e f g0 rest
        simp [many1C, hx, ht, toBL]
      | cons y u =>
        have hlf : (encL (RListE.cons y u) ++ 101 :: rest).length < f := by
          simp only [List.length_append, List.length_cons] at hf ⊢
          omega
        have hlg : (encL (RListE.cons y u) ++ 101 :: rest).length < g0 := by
          simp only [List.length_append, List.length_cons] at hg ⊢
          omega
        have ht := rt_list (RListE.cons y u) rest f g0 hwt (by simp [RListE.notNil]) hlf hlg
        simp [many1C, hx, ht, toBL]

theorem rt_pairs (ps : RPairsE) (rest : List Nat) (f g : Nat) (hw : wfP ps = true)
    (hne : ps.notNil = true)
    (hf : (encP ps ++ 101 :: rest).length < f)
    (hg : (encP ps ++ 101 :: rest).length < g) :
    many1KVC (from_bytesF f) g (encP ps ++ 101 :: rest) = some (101 :: rest, toPairs ps) := by
  cases ps with
  | nil => simp [RPairsE.notNil] at hne
  | cons kds k v t =>
    have hw2 := hw
    simp only [wfP, Bool.and_eq_true, decide_eq_true_eq] at hw2
    obtain ⟨⟨⟨⟨⟨⟨hkne, hkdig⟩, hklen⟩, hklim⟩, hkutf⟩, hwv⟩, hwt⟩ := hw2
    have hkds : kds ≠ [] := by
      cases kds with
      | nil => simp at hkne
      | cons a b => simp
    have hk1 : 0 < kds.length := List.length_pos.mpr hkds
    have hv2 := encV_length_ge2 v hwv
    cases g with
    | zero => exact absurd hg (Nat.not_lt_zero _)
    | succ g0 =>
      have hshape : encP (RPairsE.cons kds k v t) ++ 101 :: rest =
          kds ++ 58 :: (k ++ (encV v ++ (encP t ++ 101 :: rest))) := by
        simp [encP]
      rw [hshape] at hf hg ⊢
      have hps : parse_string (kds ++ 58 :: (k ++ (encV v ++ (encP t ++ 101 :: rest)))) =
          some (encV v ++ (encP t ++ 101 :: rest), k) := by
        rw [parse_string_append kds k (encV v ++ (encP t ++ 101 :: rest)) hkds hkdig hklen hklim]
        rw [if_pos hkutf]
      have hfv : (encV v ++ (encP t ++ 101 :: rest)).length < f := by
        simp only [List.length_append, List.length_cons] at hf ⊢
        omega
      have hv : from_bytesF f (encV v ++ (encP t ++ 101 :: rest)) =
          some (encP t ++ 101 :: rest, toB v) :=
        rt_val v (encP t ++ 101 :: rest) f hwv hfv
      cases t with
      | nil =>
        simp only [encP, List.nil_append] at hps hv ⊢
        have ht : many1KVC (from_bytesF f) g0 (101 :: rest) = none :=
          many1KVC_e (from_bytesF f) g0 rest
        simp [many1KVC, hps, hv, ht, toPairs]
      | cons kds2 k2 v2 u =>
        have hlf : (encP (RPairsE.cons kds2 k2 v2 u) ++ 101 :: rest).length < f := by
          simp only [List.length_append, List.length_cons] at hf ⊢
          omega
        have hlg : (encP (RPairsE.cons kds2 k2 v2 u) ++ 101 :: rest).length < g0 := by
          simp only [List.length_append, List.length_cons] at hg ⊢
          omega
        have ht := rt_pairs (RPairsE.cons kds2 k2 v2 u) rest f g0 hwt
          (by simp [RPairsE.notNil]) hlf hlg
        simp [many1KVC, hps, hv, ht, toPairs]

end

theorem lookupKV_insertKV (m : List (List Nat × BValue)) (a : List Nat) (b : BValue)
    (k : List Nat) :
    lookupKV (insertKV m a b) k = if a = k then some b else lookupKV m k := by
  induction m with
  | nil => simp [insertKV, lookupKV]
  | cons p t ih =>
    obtain ⟨a2, b2⟩ := p
    by_cases h1 : a2 = a
    · subst h1
      simp only [insertKV, lookupKV, if_pos rfl]
      by_cases h2 : a2 = k <;> simp [h2]
    · by_cases h2 : a2 = k
      · subst h2
        have hak : a ≠ a2 := fun h => h1 h.symm
        simp [insertKV, h1, lookupKV, hak]
      · simp [insertKV, h1, lookupKV, h2, ih]

theorem collectKV_append_single (l : List (List Nat × BValue)) (p : List Nat × BValue) :
    collectKV (l ++ [p]) = insertKV (collectKV l) p.1 p.2 := by
  simp [collectKV, List.foldl_append]

theorem lookupKV_collectKV (l : List (List Nat × BValue)) (k : List Nat) :
    lookupKV (collectKV l) k = lookupKV l.reverse k := by
  induction l using List.reverseRecOn with
  | nil => simp [collectKV, lookupKV]
  | append_singleton l p ih =>
    obtain ⟨a, b⟩ := p
    rw [collectKV_append_single, lookupKV_insertKV]
    simp [lookupKV, ih]

theorem many1KVC_bad_tail (ps : RPairsE) (B : List Nat) (f : Nat)
    (hB : parse_string B = none) :
    ∀ g, wfP ps = true → (encP ps ++ B).length < f → (encP ps ++ B).length < g →
      many1KVC (from_bytesF f) g (encP ps ++ B) =
        if ps.notNil then some (B, toPairs ps) else none := by
  cases ps with
  | nil =>
    intro g hw hf hg
    simp only [encP, List.nil_append, RPairsE.notNil]
    cases g with
    | zero => rfl
    | succ g0 => simp [many1KVC, hB]
  | cons kds0 k0 v t =>
    intro g hw hf hg
    simp only [wfP, Bool.and_eq_true, decide_eq_true_eq] at hw
    obtain ⟨⟨⟨⟨⟨⟨hkne, hkdig⟩, hklen⟩, hklim⟩, hkutf⟩, hwv⟩, hwt⟩ := hw
    have hkds : kds0 ≠ [] := by
      cases kds0 with
      | nil => simp at hkne
      | cons a b => simp
    have hk1 : 0 < kds0.length := List.length_pos.mpr hkds
    have hv2 := encV_length_ge2 v hwv
    cases g with
    | zero => exact absurd hg (Nat.not_lt_zero _)
    | succ g0 =>
      have hshape : encP (RPairsE.cons kds0 k0 v t) ++ B =
          kds0 ++ 58 :: (k0 ++ (encV v ++ (encP t ++ B))) := by
        simp [encP]
      rw [hshape] at hf hg ⊢
      have hps2 : parse_string (kds0 ++ 58 :: (k0 ++ (encV v ++ (encP t ++ B)))) =
          some (encV v ++ (encP t ++ B), k0) := by
        rw [parse_string_append kds0 k0 (encV v ++ (encP t ++ B)) hkds hkdig hklen hklim]
        rw [if_pos hkutf]
      have hfv : (encV v ++ (encP t ++ B)).length < f := by
        simp only [List.length_append, List.length_cons] at hf ⊢
        omega
      have hv : from_bytesF f (encV v ++ (encP t ++ B)) = some (encP t ++ B, toB v) :=
        rt_val v (encP t ++ B) f hwv hfv
      have hlf : (encP t ++ B).length < f := by
        simp only [List.length_append, List.length_cons] at hf ⊢
        omega
      have hlg : (encP t ++ B).length < g0 := by
        simp only [List.length_append, List.length_cons] at hg ⊢
        omega
      have ht := many1KVC_bad_tail t B f hB g0 hwt hlf hlg
      cases t with
      | nil =>
        simp only [encP, List.nil_append] at hps2 hv ht ⊢
        simp only [RPairsE.notNil, Bool.false_eq_true, if_false] at ht
        simp [many1KVC, hps2, hv, ht, toPairs, RPairsE.notNil]
      | cons kds2 k2 v2 u =>
        simp only [RPairsE.notNil, if_true] at ht
        simp [many1KVC, hps2, hv, ht, toPairs, RPairsE.notNil]

/-- Claim C1: the spec states that `get_string` on a `BBytes` value whose
bytes are not valid UTF-8 fails by returning an absent/error result and
never aborts the process.  The code instead calls
`from_utf8(bytes).unwrap()`, which aborts (modelled by `Except.error ()`)
on such bytes; the offending value is reachable from attacker-controlled
input, since decoding `1:\xFF` produces `BBytes [0xFF]`. -/
theorem get_string_panics_on_invalid_utf8 :
    from_bytes [49, 58, 255] = some ([], BValue.BBytes [255]) ∧
    validUtf8 [255] = false ∧
    BValue.get_string (BValue.BBytes [255]) = Except.error () :=
  ⟨rfl, rfl, rfl⟩

/-- Claim C2, counterexample: `d1:\xFFi3ee` is a well-formed dictionary
encoding whose key is the byte-string production `1:\xFF` (length prefix,
colon, one arbitrary byte), yet decode fails, because `parse_dict` parses
keys with `parse_string`, which requires the key bytes to be valid UTF-8. -/
theorem dict_invalid_utf8_key_counterexample :
    validUtf8 [255] = false ∧
    from_bytes [100, 49, 58, 255, 105, 51, 101, 101] = none :=
  ⟨rfl, rfl⟩

/-- Claim C2, amended: the core decoder converts every dictionary key to
`String` via `String::from_utf8` and therefore does require keys to be
valid text: for every dictionary encoding made of any number of
well-formed key/value pairs followed by a key whose bytes are not valid
UTF-8 (and then arbitrary further bytes), decode fails.  Since the pairs
before the first non-UTF-8 key of any well-formed dictionary encoding are
of exactly this shape, decode succeeds only if every key is valid UTF-8,
wherever in the dictionary the offending key occurs. -/
theorem dict_key_requires_utf8 (ps : RPairsE) (lds k rest : List Nat)
    (hps : wfP ps = true)
    (h0 : lds ≠ []) (h1 : lds.all isDigit = true)
    (h2 : digitsVal lds = k.length) (h3 : k.length < usizeLim)
    (h4 : validUtf8 k = false) :
    from_bytes (100 :: (encP ps ++ (lds ++ 58 :: (k ++ rest)))) = none := by
  obtain ⟨d, t2, hdt⟩ : ∃ d t2, lds = d :: t2 := by
    cases lds with
    | nil => exact absurd rfl h0
    | cons a b => exact ⟨a, b, rfl⟩
  have hdig0 : isDigit d = true := by
    rw [hdt] at h1
    simp only [List.all_cons, Bool.and_eq_true] at h1
    exact h1.1
  obtain ⟨hd1, hd2⟩ := isDigit_iff.mp hdig0
  have hB : parse_string (lds ++ 58 :: (k ++ rest)) = none := by
    rw [parse_string_append lds k rest h0 h1 h2 h3, h4]
    simp
  have hpe : pchar 101 (lds ++ 58 :: (k ++ rest)) = none := by
    rw [hdt, List.cons_append]
    exact pchar_cons_ne 101 d _ (by omega)
  have hm := many1KVC_bad_tail ps (lds ++ 58 :: (k ++ rest))
    ((encP ps ++ (lds ++ 58 :: (k ++ rest))).length + 1) hB
    ((encP ps ++ (lds ++ 58 :: (k ++ rest))).length + 1)
    hps (Nat.lt_succ_self _) (Nat.lt_succ_self _)
  have hpd : parse_dictC
      (from_bytesF ((encP ps ++ (lds ++ 58 :: (k ++ rest))).length + 1))
      (100 :: (encP ps ++ (lds ++ 58 :: (k ++ rest)))) = none := by
    simp only [List.length_append, List.length_cons] at hm
    cases hnn : ps.notNil with
    | false =>
      rw [hnn] at hm
      simp only [Bool.false_eq_true, if_false] at hm
      simp [parse_dictC, pchar_cons_self, hm]
    | true =>
      rw [hnn] at hm
      simp only [if_true] at hm
      simp [parse_dictC, pchar_cons_self, hm, hpe]
  have hpn : parse_number (100 :: (encP ps ++ (lds ++ 58 :: (k ++ rest)))) = none :=
    parse_number_cons_ne 100 _ (by decide)
  have hpb : parse_bytes (100 :: (encP ps ++ (lds ++ 58 :: (k ++ rest)))) = none :=
    parse_bytes_cons_nd 100 _ (by decide)
  have hpl : parse_listC
      (from_bytesF ((encP ps ++ (lds ++ 58 :: (k ++ rest))).length + 1))
      (100 :: (encP ps ++ (lds ++ 58 :: (k ++ rest)))) = none :=
    parse_listC_cons_ne _ 100 _ (by decide)
  simp only [from_bytes]
  rw [show (100 :: (encP ps ++ (lds ++ 58 :: (k ++ rest)))).length + 1 =
      ((encP ps ++ (lds ++ 58 :: (k ++ rest))).length + 1) + 1 by
    rw [List.length_cons]]
  rw [from_bytesF_succ]
  simp only [hpn, hpb, hpl, hpd]

/-- Witness for the amended claim C2 at the concrete input
`d1:ai1e1:\xFFi3ee`: the well-formed first pair maps `a` to `1`, and the
second key is the single non-UTF-8 byte `0xFF`, so decode fails. -/
theorem dict_key_requires_utf8_witness :
    (wfP (RPairsE.cons [49] [97] (REnc.num false [49]) RPairsE.nil) = true ∧
      ([49] : List Nat) ≠ [] ∧ ([49] : List Nat).all isDigit = true ∧
      digitsVal [49] = ([255] : List Nat).length ∧
      ([255] : List Nat).length < usizeLim ∧ validUtf8 [255] = false) ∧
    from_bytes (100 :: (encP (RPairsE.cons [49] [97] (REnc.num false [49]) RPairsE.nil) ++
      ([49] ++ 58 :: ([255] ++ [105, 51, 101, 101])))) = none :=
  ⟨⟨by decide, by decide, by decide, by decide, by decide, rfl⟩,
    dict_key_requires_utf8 (RPairsE.cons [49] [97] (REnc.num false [49]) RPairsE.nil)
      [49] [255] [105, 51, 101, 101]
      (by decide) (by decide) (by decide) (by decide) (by decide) rfl⟩

/-- Claim C3: for every valid Bencode encoding of a value (any derivation
tree of the grammar) followed by arbitrary trailing bytes, decode succeeds,
returns the decoded value, and returns exactly the trailing bytes as the
unconsumed remainder. -/
theorem decode_trailing_bytes (t : REnc) (rest : List Nat) (hw : wfV t = true) :
    from_bytes (encV t ++ rest) = some (rest, toB t) := by
  simp only [from_bytes]
  exact rt_val t rest _ hw (Nat.lt_succ_self _)

/-- Witness for claim C3 at the input `i3eXYZ`: decode yields `BNumber 3`
with remainder `XYZ`. -/
theorem decode_trailing_bytes_witness :
    wfV (REnc.num false [51]) = true ∧
    from_bytes (encV (REnc.num false [51]) ++ [88, 89, 90]) =
      some ([88, 89, 90], toB (REnc.num false [51])) :=
  ⟨by decide, decode_trailing_bytes (REnc.num false [51]) [88, 89, 90] (by decide)⟩

/-- Claim C4: the list and dictionary productions require one or more
elements/pairs (`many1`), so `le` and `de` (with anything following) are
parse failures. -/
theorem empty_list_and_dict_fail :
    (∀ rest : List Nat, from_bytes (108 :: 101 :: rest) = none) ∧
    (∀ rest : List Nat, from_bytes (100 :: 101 :: rest) = none) := by
  constructor
  · intro rest
    have hall : ∀ fuel, from_bytesF fuel (108 :: 101 :: rest) = none := by
      intro fuel
      cases fuel with
      | zero => rfl
      | succ f =>
        have hpl : parse_listC (from_bytesF f) (108 :: 101 :: rest) = none := by
          simp [parse_listC, pchar_cons_self, many1C_e]
        simp [from_bytesF, parse_number_cons_ne 108 _ (by decide),
          parse_bytes_cons_nd 108 _ (by decide), hpl,
          parse_dictC_cons_ne (from_bytesF f) 108 _ (by decide)]
    simp only [from_bytes]
    exact hall _
  · intro rest
    have hall : ∀ fuel, from_bytesF fuel (100 :: 101 :: rest) = none := by
      intro fuel
      cases fuel with
      | zero => rfl
      | succ f =>
        have hpd : parse_dictC (from_bytesF f) (100 :: 101 :: rest) = none := by
          simp [parse_dictC, pchar_cons_self, many1KVC_e]
        simp [from_bytesF, parse_number_cons_ne 100 _ (by decide),
          parse_bytes_cons_nd 100 _ (by decide),
          parse_listC_cons_ne (from_bytesF f) 100 _ (by decide), hpd]
    simp only [from_bytes]
    exact hall _

/-- Claim C5: an integer production whose signed digit run does not fit in
a signed 64-bit integer is a parse failure, and the empty digit run `ie`
is likewise a parse failure. -/
theorem integer_overflow_fails :
    from_bytes [105, 101] = none ∧
    ∀ (neg : Bool) (ds rest : List Nat), ds ≠ [] → ds.all isDigit = true →
      ¬(i64Min ≤ intOfDigits neg ds ∧ intOfDigits neg ds ≤ i64Max) →
      from_bytes (105 :: ((if neg then [45] else []) ++ (ds ++ 101 :: rest))) = none := by
  refine ⟨rfl, ?_⟩
  intro neg ds rest h0 h1 hov
  have hpn := parse_number_append neg ds rest h0 h1
  rw [if_neg hov] at hpn
  have hall : ∀ fuel,
      from_bytesF fuel (105 :: ((if neg then [45] else []) ++ (ds ++ 101 :: rest))) = none := by
    intro fuel
    cases fuel with
    | zero => rfl
    | succ f =>
      simp [from_bytesF, hpn, parse_bytes_cons_nd 105 _ (by decide),
        parse_listC_cons_ne (from_bytesF f) 105 _ (by decide),
        parse_dictC_cons_ne (from_bytesF f) 105 _ (by decide)]
  simp only [from_bytes]
  exact hall _

/-- Witness for claim C5 at `i9223372036854775808e` (`i64::MAX + 1`). -/
theorem integer_overflow_fails_witness :
    (overflowDigits ≠ [] ∧ overflowDigits.all isDigit = true ∧
      ¬(i64Min ≤ intOfDigits false overflowDigits ∧
        intOfDigits false overflowDigits ≤ i64Max)) ∧
    from_bytes (105 :: ((if false then [45] else []) ++ (overflowDigits ++ 101 :: []))) =
      none :=
  ⟨⟨by decide, by decide, by decide⟩,
    integer_overflow_fails.2 false overflowDigits [] (by decide) (by decide) (by decide)⟩

/-- Claim C6: a byte-string production whose declared decimal length
exceeds the remaining input is a parse failure (an error result, not a
short read and not an abort). -/
theorem truncated_bytestring_fails (lds p : List Nat)
    (h0 : lds ≠ []) (h1 : lds.all isDigit = true)
    (h2 : p.length < digitsVal lds) (h3 : digitsVal lds < usizeLim) :
    from_bytes (lds ++ 58 :: p) = none := by
  obtain ⟨d, t2, hdt⟩ : ∃ d t2, lds = d :: t2 := by
    cases lds with
    | nil => exact absurd rfl h0
    | cons a b => exact ⟨a, b, rfl⟩
  have hdig0 : isDigit d = true := by
    rw [hdt] at h1
    simp only [List.all_cons, Bool.and_eq_true] at h1
    exact h1.1
  obtain ⟨hd1, hd2⟩ := isDigit_iff.mp hdig0
  have hpb : parse_bytes (lds ++ 58 :: p) = none := by
    simp [parse_bytes, parse_length_append lds p h0 h1 h3, ptake_short _ _ h2]
  have hall : ∀ fuel, from_bytesF fuel (lds ++ 58 :: p) = none := by
    intro fuel
    cases fuel with
    | zero => rfl
    | succ f =>
      have hpn : parse_number (lds ++ 58 :: p) = none := by
        rw [hdt, List.cons_append]
        exact parse_number_cons_ne d _ (by omega)
      have hpl : parse_listC (from_bytesF f) (lds ++ 58 :: p) = none := by
        rw [hdt, List.cons_append]
        exact parse_listC_cons_ne (from_bytesF f) d _ (by omega)
      have hpd : parse_dictC (from_bytesF f) (lds ++ 58 :: p) = none := by
        rw [hdt, List.cons_append]
        exact parse_dictC_cons_ne (from_bytesF f) d _ (by omega)
      simp [from_bytesF, hpn, hpb, hpl, hpd]
  simp only [from_bytes]
  exact hall _

/-- Witness for claim C6 at `5:ab` (five bytes declared, two supplied). -/
theorem truncated_bytestring_fails_witness :
    (([53] : List Nat) ≠ [] ∧ ([53] : List Nat).all isDigit = true ∧
      ([97, 98] : List Nat).length < digitsVal [53] ∧ digitsVal [53] < usizeLim) ∧
    from_bytes ([53] ++ 58 :: [97, 98]) = none :=
  ⟨⟨by decide, by decide, by decide, by decide⟩,
    truncated_bytestring_fails [53] [97, 98] (by decide) (by decide) (by decide) (by decide)⟩

/-- Claim C7: decode of the empty input fails, and decode of any input
whose leading byte is none of `i`, an ASCII digit, `l`, `d` fails. -/
theorem invalid_leading_byte_fails :
    from_bytes [] = none ∧
    ∀ (b : Nat) (rest : List Nat), b ≠ 105 → isDigit b = false → b ≠ 108 → b ≠ 100 →
      from_bytes (b :: rest) = none := by
  refine ⟨rfl, ?_⟩
  intro b rest h1 h2 h3 h4
  simp only [from_bytes]
  exact from_bytesF_bad _ b rest h1 h2 h3 h4

/-- Witness for claim C7 at the input `x`. -/
theorem invalid_leading_byte_fails_witness :
    ((120 : Nat) ≠ 105 ∧ isDigit 120 = false ∧ (120 : Nat) ≠ 108 ∧ (120 : Nat) ≠ 100) ∧
    from_bytes [120] = none :=
  ⟨⟨by decide, rfl, by decide, by decide⟩,
    invalid_leading_byte_fails.2 120 [] (by decide) rfl (by decide) (by decide)⟩

/-- Claim C8: a well-formed dictionary encoding decodes successfully to the
`HashMap` obtained by inserting its pairs in parse order, and that map
sends every key to the value of the last pair carrying that key: a
duplicate key overwrites the earlier entry, so with exactly two pairs
sharing a key the later (second) value wins. -/
theorem duplicate_key_overwrites (ps : RPairsE) (rest k : List Nat)
    (hw : wfV (REnc.dict ps) = true) :
    from_bytes (encV (REnc.dict ps) ++ rest) =
      some (rest, BValue.BDict (collectKV (toPairs ps))) ∧
    lookupKV (collectKV (toPairs ps)) k = lookupKV (toPairs ps).reverse k := by
  constructor
  · simp only [from_bytes]
    have h := rt_val (REnc.dict ps) rest _ hw (Nat.lt_succ_self _)
    simpa [toB] using h
  · exact lookupKV_collectKV (toPairs ps) k

/-- Witness for claim C8 at `d1:ai1e1:ai2ee`: the duplicate key `a` maps to
`BNumber 2`, the value of the second pair. -/
theorem duplicate_key_overwrites_witness :
    wfV (REnc.dict dupDictExample) = true ∧
    (from_bytes (encV (REnc.dict dupDictExample) ++ []) =
        some ([], BValue.BDict (collectKV (toPairs dupDictExample))) ∧
      lookupKV (collectKV (toPairs dupDictExample)) [97] =
        lookupKV (toPairs dupDictExample).reverse [97]) ∧
    lookupKV (collectKV (toPairs dupDictExample)) [97] = some (BValue.BNumber 2) :=
  ⟨by decide, duplicate_key_overwrites dupDictExample [] [97] (by decide), rfl⟩

/-- Claim C9: decode is deterministic: two invocations on the same input
return equal results (the decoder is a pure function of its input, with no
retry logic; in particular the same invalid input yields the same error). -/
theorem decode_deterministic (i : List Nat) (r1 r2 : Option (List Nat × BValue))
    (h1 : from_bytes i = r1) (h2 : from_bytes i = r2) : r1 = r2 :=
  h1.symm.trans h2

/-- Witness for claim C9 at the invalid input `i` (a bare integer start):
both invocations fail with the same error. -/
theorem decode_deterministic_witness :
    from_bytes [105] = none ∧ from_bytes [105] = none ∧
    (none : Option (List Nat × BValue)) = none :=
  ⟨rfl, rfl, decode_deterministic [105] none none rfl rfl⟩

/-- Claim C10: the string entry point `from_string` returns exactly the
result of the byte entry point `from_bytes` applied to the UTF-8 bytes of
the string. -/
theorem from_string_eq_from_bytes (s : String) :
    from_string s = from_bytes (strBytes s) := rfl

end Torcode
